import Mathlib

/-!
Verification of the transaction codec in `cryptokit/transaction.py`.

Bytes are modelled as `List Nat` (each entry one byte), machine integers as
`Nat`, and Python `None` as `Option.none`.  Fallible Python code (struct
unpack errors, failed asserts, `TypeError` on `None`, `IndexError`) is
modelled with `Option`: `none` is an uncaught Python exception.

The repository modules `cryptokit/__init__.py` (class `BitcoinEncoding`
with `varlen_encode`, `varlen_decode`, `funpack`), `cryptokit/base58.py`
(`address_bytes`), and `cryptokit/dark.py` (`ser_string`) are not in the
source tree; those collaborators are modelled from the spec (see the doc
comments marked "Modelled from the spec").  Everything else is a direct
transliteration of `transaction.py`.
-/

namespace Cryptokit

/-- Little-endian encoding of `n` into `w` bytes, least significant byte
first.  Models `struct.pack` with formats `<H`, `<L`, `<Q` (and `<i` for
the nonnegative values this codec produces); `pack` raises on values out
of range, so theorems carry explicit range hypotheses and the truncating
behaviour of this total function is never relied upon out of range. -/
def toLE : Nat → Nat → List Nat
  | 0, _ => []
  | w + 1, n => n % 256 :: toLE w (n / 256)

/-- Little-endian decoding of a byte list into a natural number. -/
def fromLE (l : List Nat) : Nat :=
  l.foldr (fun b acc => b + 256 * acc) 0

/-- Modelled from the spec: `fixed_unpack(format, bytes) -> value`, the
fixed-width little-endian unpack primitive (`BitcoinEncoding.funpack`,
whose module is absent from src).  `struct.unpack` demands exactly `w`
bytes and raises otherwise. -/
def funpackW (w : Nat) (l : List Nat) : Option Nat :=
  if l.length = w then some (fromLE l) else none

/-- Unpack format `<H` (2 bytes). -/
def funpackH (l : List Nat) : Option Nat := funpackW 2 l

/-- Unpack format `<L` (4 bytes). -/
def funpackL (l : List Nat) : Option Nat := funpackW 4 l

/-- Unpack format `<Q` (8 bytes). -/
def funpackQ (l : List Nat) : Option Nat := funpackW 8 l

/-- Modelled from the spec: `varlen_encode(value) -> bytes`
(`BitcoinEncoding.varlen_encode`, whose module is absent from src), the
standard Bitcoin variable-length integer: values below `0xfd` are one
byte, then marker bytes `0xfd`/`0xfe`/`0xff` prefix 2/4/8 little-endian
bytes. -/
def varlen_encode (n : Nat) : List Nat :=
  if n < 0xfd then [n]
  else if n ≤ 0xffff then 0xfd :: toLE 2 n
  else if n ≤ 0xffffffff then 0xfe :: toLE 4 n
  else 0xff :: toLE 8 n

/-- Modelled from the spec: `varlen_decode(buffer) -> (value, remaining_buffer)`
(`BitcoinEncoding.varlen_decode`, whose module is absent from src), the
inverse of `varlen_encode`; an empty or truncated buffer raises. -/
def varlen_decode (d : List Nat) : Option (Nat × List Nat) :=
  match d with
  | [] => none
  | b :: rest =>
    if b = 0xff then
      match funpackQ (rest.take 8) with
      | some v => some (v, rest.drop 8)
      | none => none
    else if b = 0xfe then
      match funpackL (rest.take 4) with
      | some v => some (v, rest.drop 4)
      | none => none
    else if b = 0xfd then
      match funpackH (rest.take 2) with
      | some v => some (v, rest.drop 2)
      | none => none
    else some (b, rest)

/-- Modelled from the spec: `length_prefixed_encode(bytes) -> bytes`
(`ser_string` from `cryptokit/dark.py`, absent from src): a varint length
prefix followed by the bytes themselves. -/
def ser_string (m : List Nat) : List Nat :=
  varlen_encode m.length ++ m

/-- ASCII code of the lowercase hex digit of `n < 16`. -/
def hexDigit (n : Nat) : Nat :=
  if n < 10 then 48 + n else 87 + n

/-- Models `binascii.hexlify`: each byte becomes two lowercase hex digit
characters (returned as their ASCII codes). -/
def hexlify (l : List Nat) : List Nat :=
  l.foldr (fun b acc => hexDigit (b / 16) :: hexDigit (b % 16) :: acc) []

/-- Input record: `Input = namedtuple('Input', ['prevout_hash',
'prevout_idx', 'script_sig', 'seqno'])`. -/
structure Input where
  prevout_hash : List Nat
  prevout_idx : Nat
  script_sig : List Nat
  seqno : Nat
deriving DecidableEq, Repr

/-- Output record: `Output = namedtuple('Output', ['amount',
'script_pub_key'])`. -/
structure Output where
  amount : Nat
  script_pub_key : List Nat
deriving DecidableEq, Repr

/-- `Output.to_address(amount, address)`: builds the pay-to-address
locking script `b'\x76\xa9\x14' + raw_addr + b'\x88\xac'` around the
decoded address bytes.  The base58 decoder `address_bytes` lives in a
module absent from src, so it is passed in as a function parameter. -/
def Output.to_address (address_bytes : String → List Nat)
    (amount : Nat) (address : String) : Output :=
  ⟨amount, [0x76, 0xa9, 0x14] ++ address_bytes address ++ [0x88, 0xac]⟩

/-- The Transaction aggregate's mutable state: the fields assigned in
`Transaction.__init__`. -/
structure Transaction where
  _raw : Option (List Nat)
  inputs : List Input
  outputs : List Output
  locktime : Nat
  n_time : Option Nat
  fees : Option Nat
  version : Option Nat
  _hash : Option (List Nat)
  transaction_message : Option (List Nat)
deriving DecidableEq, Repr

namespace Transaction

/-- `Transaction._nullprev = b'\0' * 32`. -/
def _nullprev : List Nat := List.replicate 32 0

/-- Models `Transaction.__init__(raw, fees, pos, messages)`.  The `raw`
argument carries a flag `rawIsBytes` standing for Python's
`isinstance(raw, (bytearray, newbytes))` check; `none` is the result of
the raised `AttributeError`.  Python truthiness: an empty byte string is
falsy, so `if raw:` skips both the type check and the assignment and
`_raw` stays `None`.  The `disassemble=True` convenience flag (which just
chains a `disassemble()` call) is not modelled. -/
def init (raw : Option (List Nat)) (rawIsBytes : Bool)
    (fees : Option Nat) (pos : Bool) (messages : Bool) : Option Transaction :=
  let mkBase : Option (List Nat) → Transaction := fun r =>
    { _raw := r
      inputs := []
      outputs := []
      locktime := 0
      n_time := if pos then some 0 else none
      fees := fees
      version := none
      _hash := none
      transaction_message := if messages then some [] else none }
  match raw with
  | some r =>
    if r ≠ [] then
      if rawIsBytes then some (mkBase (some r)) else none
    else some (mkBase none)
  | none => some (mkBase none)

/-- One iteration of the input-parsing loop in `Transaction.disassemble`:
32 bytes of `prevout_hash`, 4 bytes `<L>` of `prevout_idx`, a varint
script length, the script bytes, 4 bytes `<L>` of `seqno`; returns the
input and the rest of the buffer. -/
def parseInput (data : List Nat) : Option (Input × List Nat) :=
  let prevout_hash := data.take 32
  match funpackL ((data.drop 32).take 4) with
  | none => none
  | some prevout_idx =>
    match varlen_decode (data.drop 36) with
    | none => none
    | some (ss_len, d) =>
      let script_sig := d.take ss_len
      match funpackL ((d.drop ss_len).take 4) with
      | none => none
      | some seqno =>
        some (⟨prevout_hash, prevout_idx, script_sig, seqno⟩, d.drop (ss_len + 4))

/-- The input-parsing loop, iterated `count` times. -/
def parseInputs : Nat → List Nat → Option (List Input × List Nat)
  | 0, d => some ([], d)
  | n + 1, d =>
    match parseInput d with
    | none => none
    | some (i, d') =>
      match parseInputs n d' with
      | none => none
      | some (is, d'') => some (i :: is, d'')

/-- One iteration of the output-parsing loop: 8 bytes `<Q>` of `amount`,
a varint script length, the script bytes. -/
def parseOutput (data : List Nat) : Option (Output × List Nat) :=
  match funpackQ (data.take 8) with
  | none => none
  | some amount =>
    match varlen_decode (data.drop 8) with
    | none => none
    | some (ps_len, d) => some (⟨amount, d.take ps_len⟩, d.drop ps_len)

/-- The output-parsing loop, iterated `count` times. -/
def parseOutputs : Nat → List Nat → Option (List Output × List Nat)
  | 0, d => some ([], d)
  | n + 1, d =>
    match parseOutput d with
    | none => none
    | some (o, d') =>
      match parseOutputs n d' with
      | none => none
      | some (os, d'') => some (o :: os, d'')

/-- The body of `Transaction.disassemble` acting on the raw buffer:
version, varint input count, the inputs, varint output count, the
outputs, 4 bytes of locktime read from the front of the remainder, and
the `assert len(data) == 4` exhaustiveness check. -/
def parseTransactionData (data : List Nat) :
    Option (Nat × List Input × List Output × Nat) :=
  match funpackL (data.take 4) with
  | none => none
  | some version =>
    match varlen_decode (data.drop 4) with
    | none => none
    | some (input_count, d1) =>
      match parseInputs input_count d1 with
      | none => none
      | some (ins, d2) =>
        match varlen_decode d2 with
        | none => none
        | some (output_count, d3) =>
          match parseOutputs output_count d3 with
          | none => none
          | some (outs, d4) =>
            match funpackL (d4.take 4) with
            | none => none
            | some locktime =>
              if d4.length = 4 then some (version, ins, outs, locktime)
              else none

/-- `Transaction.disassemble(raw, dump_raw, fees)`.  Python truthiness
again: `0` fees and an empty `raw` byte string are falsy and ignored, so
an empty `raw` leaves the stored buffer in place.  When `_raw` is `None`
and no (truthy) raw is supplied, slicing `None` raises, modelled as
`none`. -/
def disassemble (t : Transaction) (raw : Option (List Nat))
    (dump_raw : Bool) (fees : Option Nat) : Option Transaction :=
  let t := match fees with
    | some f => if f ≠ 0 then { t with fees := some f } else t
    | none => t
  let t := match raw with
    | some r => if r ≠ [] then { t with _raw := some r } else t
    | none => t
  match t._raw with
  | none => none
  | some data =>
    match parseTransactionData data with
    | none => none
    | some (v, ins, outs, lt) =>
      some { t with
        version := some v
        inputs := ins
        outputs := outs
        locktime := lt
        _hash := none
        _raw := if dump_raw then none else t._raw }

/-- `Transaction.is_coinbase`: `self.inputs[0].prevout_hash == self._nullprev`.
Indexing an empty list raises `IndexError`, modelled as `none`. -/
def is_coinbase (t : Transaction) : Option Bool :=
  match t.inputs with
  | [] => none
  | i :: _ => some (decide (i.prevout_hash = _nullprev))

/-- The version value `Transaction.assemble` serializes: the stored
version when set, else 2 when `transaction_message is not None` (even the
empty byte string), else 1. -/
def effectiveVersion (t : Transaction) : Nat :=
  match t.version with
  | some v => v
  | none => if t.transaction_message.isSome then 2 else 1

/-- The serialized form of one input inside `assemble`'s loop. -/
def inputBytes (i : Input) : List Nat :=
  i.prevout_hash ++ toLE 4 i.prevout_idx ++
    varlen_encode i.script_sig.length ++ i.script_sig ++ toLE 4 i.seqno

/-- The serialized form of one output inside `assemble`'s loop. -/
def outputBytes (o : Output) : List Nat :=
  toLE 8 o.amount ++ varlen_encode o.script_pub_key.length ++ o.script_pub_key

/-- One iteration of `assemble`'s input loop: append the input's bytes
and overwrite `split_point` with the offset recorded just before the
4-byte `seqno` field. -/
def assembleInputsStep (acc : List Nat × Option Nat) (i : Input) :
    List Nat × Option Nat :=
  let d := acc.1 ++ i.prevout_hash ++ toLE 4 i.prevout_idx ++
    varlen_encode i.script_sig.length ++ i.script_sig
  (d ++ toLE 4 i.seqno, some d.length)

/-- The optional `pack('<i', n_time)` field emitted right after the
version (`n_time` is only ever nonnegative here). -/
def ntimeBytes (t : Transaction) : List Nat :=
  match t.n_time with
  | some nt => toLE 4 nt
  | none => []

/-- The optional trailing `ser_string(transaction_message)` field. -/
def msgBytes (t : Transaction) : List Nat :=
  match t.transaction_message with
  | some m => ser_string m
  | none => []

/-- The byte buffer built by `Transaction.assemble` together with the
final `split_point` (`none` when the input loop never ran). -/
def assembleData (t : Transaction) : List Nat × Option Nat :=
  let header := toLE 4 (effectiveVersion t) ++ ntimeBytes t ++
    varlen_encode t.inputs.length
  let step := t.inputs.foldl assembleInputsStep (header, none)
  (step.1 ++ varlen_encode t.outputs.length ++
    (t.outputs.map outputBytes).flatten ++ toLE 4 t.locktime ++ msgBytes t,
   step.2)

/-- `Transaction.assemble`: defaults the version, builds the buffer,
stores it in `_raw`, invalidates `_hash`; returns the updated object, the
buffer, and the split point. -/
def assemble (t : Transaction) : Transaction × List Nat × Option Nat :=
  let t1 : Transaction := { t with version := some (effectiveVersion t) }
  let d := assembleData t1
  ({ t1 with _raw := some d.1, _hash := none }, d.1, d.2)

/-- The buffer returned by `assemble(split=False)`. -/
def assembleFull (t : Transaction) : List Nat :=
  (assemble t).2.1

/-- The pair returned by `assemble(split=True)`:
`(data[:split_point], data[split_point:])`.  When `split_point` is still
`None` (no inputs), Python slicing with a `None` bound yields the whole
buffer on both sides. -/
def assembleSplit (t : Transaction) : List Nat × List Nat :=
  let r := assemble t
  match r.2.2 with
  | none => (r.2.1, r.2.1)
  | some p => (r.2.1.take p, r.2.1.drop p)

/-- The `raw` property: returns `_raw`, assembling first when absent. -/
def rawGet (t : Transaction) : Transaction × List Nat :=
  match t._raw with
  | some r => (t, r)
  | none =>
    let a := assemble t
    (a.1, a.2.1)

/-- The `hash` property, parametrized by the digest function `sha` (one
application of `sha256(...).digest()`).  Faithful to the source: it reads
`self._raw` directly, so when `_raw` is `None` the call
`sha256(self._raw)` raises `TypeError`, modelled as `none`; the `raw`
property (which would assemble) is never consulted. -/
def hashGet (sha : List Nat → List Nat) (t : Transaction) :
    Option (Transaction × List Nat) :=
  match t._hash with
  | some h => some (t, h)
  | none =>
    match t._raw with
    | none => none
    | some r =>
      let h := (sha (sha r)).reverse
      some ({ t with _hash := some h }, h)

/-- The `behash` property: `self.hash[::-1]`. -/
def behashGet (sha : List Nat → List Nat) (t : Transaction) :
    Option (Transaction × List Nat) :=
  (hashGet sha t).map (fun p => (p.1, p.2.reverse))

/-- The `lehexhash` property: `hexlify(self.hash)`. -/
def lehexhashGet (sha : List Nat → List Nat) (t : Transaction) :
    Option (Transaction × List Nat) :=
  (hashGet sha t).map (fun p => (p.1, hexlify p.2))

/-- The `behexhash` property: `hexlify(self.hash[::-1])`. -/
def behexhashGet (sha : List Nat → List Nat) (t : Transaction) :
    Option (Transaction × List Nat) :=
  (hashGet sha t).map (fun p => (p.1, hexlify p.2.reverse))

end Transaction

end Cryptokit

/-! ### Helper lemmas about the byte-level primitives -/

namespace Cryptokit

theorem length_toLE (w n : Nat) : (toLE w n).length = w := by
  induction w generalizing n with
  | zero => rfl
  | succ w ih => simp [toLE, ih]

theorem fromLE_nil : fromLE [] = 0 := rfl

theorem fromLE_cons (b : Nat) (l : List Nat) :
    fromLE (b :: l) = b + 256 * fromLE l := rfl

theorem fromLE_toLE (w n : Nat) (h : n < 256 ^ w) : fromLE (toLE w n) = n := by
  induction w generalizing n with
  | zero =>
    have : n = 0 := by simpa using h
    simp [this, toLE, fromLE_nil]
  | succ w ih =>
    have h2 : n / 256 < 256 ^ w := by
      rw [Nat.div_lt_iff_lt_mul (by norm_num : 0 < 256)]
      calc n < 256 ^ (w + 1) := h
      _ = 256 ^ w * 256 := by rw [Nat.pow_succ]
    rw [toLE, fromLE_cons, ih _ h2, Nat.mod_add_div]

theorem funpackW_toLE (w n : Nat) (h : n < 256 ^ w) :
    funpackW w (toLE w n) = some n := by
  simp [funpackW, length_toLE, fromLE_toLE _ _ h]

theorem take_append_le {α : Type} (l s : List α) {n : Nat} (h : n ≤ l.length) :
    (l ++ s).take n = l.take n := by
  rw [List.take_append_eq_append_take, Nat.sub_eq_zero_of_le h, List.take_zero,
    List.append_nil]

theorem drop_append_le {α : Type} (l s : List α) {n : Nat} (h : n ≤ l.length) :
    (l ++ s).drop n = l.drop n ++ s := by
  rw [List.drop_append_eq_append_drop, Nat.sub_eq_zero_of_le h, List.drop_zero]

theorem funpackW_some_length {w : Nat} {l : List Nat} {v : Nat}
    (h : funpackW w l = some v) : l.length = w := by
  by_cases hl : l.length = w
  · exact hl
  · simp [funpackW, hl] at h

theorem take_length_ge {α : Type} {l : List α} {w : Nat}
    (h : (l.take w).length = w) : w ≤ l.length := by
  simp only [List.length_take] at h
  omega

/-- A successful fixed-width read from the front of a buffer survives
appending a suffix. -/
theorem funpackW_take_append {w : Nat} {d : List Nat} {v : Nat} (s : List Nat)
    (h : funpackW w (d.take w) = some v) :
    funpackW w ((d ++ s).take w) = some v := by
  have hlen : (d.take w).length = w := funpackW_some_length h
  rw [@take_append_le Nat d s w (take_length_ge hlen)]
  exact h

theorem take_toLE (w n : Nat) : (toLE w n).take w = toLE w n :=
  List.take_of_length_le (le_of_eq (length_toLE w n))

theorem varlen_decode_encode (n : Nat) (r : List Nat) (h : n < 2 ^ 64) :
    varlen_decode (varlen_encode n ++ r) = some (n, r) := by
  by_cases h1 : n < 0xfd
  · have e1 : ¬ n = 0xff := by omega
    have e2 : ¬ n = 0xfe := by omega
    have e3 : ¬ n = 0xfd := by omega
    simp [varlen_encode, varlen_decode, h1, e1, e2, e3]
  · by_cases h2 : n ≤ 0xffff
    · have hv : n < 256 ^ 2 := by
        have : (256 : Nat) ^ 2 = 65536 := by norm_num
        omega
      simp [varlen_encode, h1, h2, varlen_decode, funpackH,
        List.take_left' (length_toLE 2 n), List.drop_left' (length_toLE 2 n),
        funpackW_toLE 2 n hv]
    · by_cases h3 : n ≤ 0xffffffff
      · have hv : n < 256 ^ 4 := by
          have : (256 : Nat) ^ 4 = 4294967296 := by norm_num
          omega
        simp [varlen_encode, h1, h2, h3, varlen_decode, funpackL,
          List.take_left' (length_toLE 4 n), List.drop_left' (length_toLE 4 n),
          funpackW_toLE 4 n hv]
      · have hv : n < 256 ^ 8 := by
          have : (256 : Nat) ^ 8 = 2 ^ 64 := by norm_num
          omega
        simp [varlen_encode, h1, h2, h3, varlen_decode, funpackQ,
          List.take_left' (length_toLE 8 n), List.drop_left' (length_toLE 8 n),
          funpackW_toLE 8 n hv]

/-- A successful varint read from the front of a buffer survives
appending a suffix. -/
theorem varlen_decode_append {d : List Nat} {v : Nat} {rest : List Nat}
    (s : List Nat) (h : varlen_decode d = some (v, rest)) :
    varlen_decode (d ++ s) = some (v, rest ++ s) := by
  match d with
  | [] => simp [varlen_decode] at h
  | b :: d' =>
    by_cases hb1 : b = 0xff
    · cases hq : funpackQ (d'.take 8) with
      | none => simp [varlen_decode, hb1, hq] at h
      | some w =>
        simp only [varlen_decode, hb1, if_true, hq] at h
        obtain ⟨hw, hr⟩ : w = v ∧ d'.drop 8 = rest := by
          simpa using h
        have hle : 8 ≤ d'.length := take_length_ge (funpackW_some_length hq)
        simp [varlen_decode, hb1, take_append_le d' s hle,
          drop_append_le d' s hle, hq, hw, hr]
    · by_cases hb2 : b = 0xfe
      · cases hq : funpackL (d'.take 4) with
        | none => simp [varlen_decode, hb1, hb2, hq] at h
        | some w =>
          simp only [varlen_decode, hb1, hb2, if_true, if_false, hq] at h
          obtain ⟨hw, hr⟩ : w = v ∧ d'.drop 4 = rest := by
            simpa using h
          have hle : 4 ≤ d'.length := take_length_ge (funpackW_some_length hq)
          simp [varlen_decode, hb1, hb2, take_append_le d' s hle,
            drop_append_le d' s hle, hq, hw, hr]
      · by_cases hb3 : b = 0xfd
        · cases hq : funpackH (d'.take 2) with
          | none => simp [varlen_decode, hb1, hb2, hb3, hq] at h
          | some w =>
            simp only [varlen_decode, hb1, hb2, hb3, if_true, if_false, hq] at h
            obtain ⟨hw, hr⟩ : w = v ∧ d'.drop 2 = rest := by
              simpa using h
            have hle : 2 ≤ d'.length := take_length_ge (funpackW_some_length hq)
            simp [varlen_decode, hb1, hb2, hb3, take_append_le d' s hle,
              drop_append_le d' s hle, hq, hw, hr]
        · obtain ⟨hw, hr⟩ : b = v ∧ d' = rest := by
            simpa [varlen_decode, hb1, hb2, hb3] using h
          subst hw
          subst hr
          simp [varlen_decode, hb1, hb2, hb3]

/-- Well-formedness of an Input, as the data model states it: a 32-byte
previous-output hash, 32-bit index and sequence number, and a script
short enough for its length to be a 64-bit varint. -/
def Input.wf (i : Input) : Prop :=
  i.prevout_hash.length = 32 ∧ i.prevout_idx < 2 ^ 32 ∧
    i.script_sig.length < 2 ^ 64 ∧ i.seqno < 2 ^ 32

instance (i : Input) : Decidable i.wf := by
  unfold Input.wf
  infer_instance

/-- Well-formedness of an Output: a 64-bit amount and a script short
enough for its length to be a 64-bit varint. -/
def Output.wf (o : Output) : Prop :=
  o.amount < 2 ^ 64 ∧ o.script_pub_key.length < 2 ^ 64

instance (o : Output) : Decidable o.wf := by
  unfold Output.wf
  infer_instance

theorem parseInput_roundtrip (i : Input) (r : List Nat) (hw : i.wf) :
    Transaction.parseInput (Transaction.inputBytes i ++ r) = some (i, r) := by
  obtain ⟨ph, idx, ss, sq⟩ := i
  unfold Input.wf at hw
  obtain ⟨h32, hidx, hss, hsq⟩ := hw
  simp only at h32 hidx hss hsq
  have hpow : (256 : Nat) ^ 4 = 2 ^ 32 := by norm_num
  have hidx' : idx < 256 ^ 4 := by omega
  have hsq' : sq < 256 ^ 4 := by omega
  simp only [Transaction.inputBytes, List.append_assoc]
  have ht32 : (ph ++ (toLE 4 idx ++ (varlen_encode ss.length ++
      (ss ++ (toLE 4 sq ++ r))))).take 32 = ph := List.take_left' h32
  have hd32 : (ph ++ (toLE 4 idx ++ (varlen_encode ss.length ++
      (ss ++ (toLE 4 sq ++ r))))).drop 32 =
      toLE 4 idx ++ (varlen_encode ss.length ++ (ss ++ (toLE 4 sq ++ r))) :=
    List.drop_left' h32
  have ht4 : ((ph ++ (toLE 4 idx ++ (varlen_encode ss.length ++
      (ss ++ (toLE 4 sq ++ r))))).drop 32).take 4 = toLE 4 idx := by
    rw [hd32]
    exact List.take_left' (length_toLE 4 idx)
  have hd36 : (ph ++ (toLE 4 idx ++ (varlen_encode ss.length ++
      (ss ++ (toLE 4 sq ++ r))))).drop 36 =
      varlen_encode ss.length ++ (ss ++ (toLE 4 sq ++ r)) := by
    rw [show ph ++ (toLE 4 idx ++ (varlen_encode ss.length ++
        (ss ++ (toLE 4 sq ++ r)))) = (ph ++ toLE 4 idx) ++
        (varlen_encode ss.length ++ (ss ++ (toLE 4 sq ++ r))) from by
      simp [List.append_assoc]]
    exact List.drop_left' (by simp [h32, length_toLE])
  have hvd : varlen_decode (varlen_encode ss.length ++ (ss ++ (toLE 4 sq ++ r))) =
      some (ss.length, ss ++ (toLE 4 sq ++ r)) :=
    varlen_decode_encode _ _ hss
  have hts : (ss ++ (toLE 4 sq ++ r)).take ss.length = ss := List.take_left' rfl
  have hds : (ss ++ (toLE 4 sq ++ r)).drop ss.length = toLE 4 sq ++ r :=
    List.drop_left' rfl
  have htq : ((ss ++ (toLE 4 sq ++ r)).drop ss.length).take 4 = toLE 4 sq := by
    rw [hds]
    exact List.take_left' (length_toLE 4 sq)
  have hdr : (ss ++ (toLE 4 sq ++ r)).drop (ss.length + 4) = r := by
    rw [show ss ++ (toLE 4 sq ++ r) = (ss ++ toLE 4 sq) ++ r from by
      simp [List.append_assoc]]
    exact List.drop_left' (by simp [length_toLE])
  have htq' : (toLE 4 sq ++ r).take 4 = toLE 4 sq :=
    List.take_left' (length_toLE 4 sq)
  simp [Transaction.parseInput, ht32, ht4, funpackL, funpackW_toLE 4 idx hidx',
    hd36, hvd, hts, hds, htq, htq', funpackW_toLE 4 sq hsq', hdr]

theorem parseInputs_roundtrip (il : List Input) (r : List Nat)
    (hw : ∀ i ∈ il, i.wf) :
    Transaction.parseInputs il.length
      ((il.map Transaction.inputBytes).flatten ++ r) = some (il, r) := by
  induction il generalizing r with
  | nil => simp [Transaction.parseInputs]
  | cons i il ih =>
    simp only [List.map_cons, List.flatten_cons, List.length_cons,
      List.append_assoc]
    rw [Transaction.parseInputs]
    simp [parseInput_roundtrip i _ (hw i (by simp)),
      ih _ (fun j hj => hw j (List.mem_cons_of_mem _ hj))]

theorem parseOutput_roundtrip (o : Output) (r : List Nat) (hw : o.wf) :
    Transaction.parseOutput (Transaction.outputBytes o ++ r) = some (o, r) := by
  obtain ⟨am, spk⟩ := o
  unfold Output.wf at hw
  obtain ⟨ham, hspk⟩ := hw
  simp only at ham hspk
  have hpow : (256 : Nat) ^ 8 = 2 ^ 64 := by norm_num
  have ham' : am < 256 ^ 8 := by omega
  simp only [Transaction.outputBytes, List.append_assoc]
  have ht8 : (toLE 8 am ++ (varlen_encode spk.length ++ (spk ++ r))).take 8 =
      toLE 8 am := List.take_left' (length_toLE 8 am)
  have hd8 : (toLE 8 am ++ (varlen_encode spk.length ++ (spk ++ r))).drop 8 =
      varlen_encode spk.length ++ (spk ++ r) :=
    List.drop_left' (length_toLE 8 am)
  have hvd : varlen_decode (varlen_encode spk.length ++ (spk ++ r)) =
      some (spk.length, spk ++ r) := varlen_decode_encode _ _ hspk
  have hts : (spk ++ r).take spk.length = spk := List.take_left' rfl
  have hds : (spk ++ r).drop spk.length = r := List.drop_left' rfl
  simp [Transaction.parseOutput, ht8, funpackQ, funpackW_toLE 8 am ham',
    hd8, hvd, hts, hds]

theorem parseOutputs_roundtrip (ol : List Output) (r : List Nat)
    (hw : ∀ o ∈ ol, o.wf) :
    Transaction.parseOutputs ol.length
      ((ol.map Transaction.outputBytes).flatten ++ r) = some (ol, r) := by
  induction ol generalizing r with
  | nil => simp [Transaction.parseOutputs]
  | cons o ol ih =>
    simp only [List.map_cons, List.flatten_cons, List.length_cons,
      List.append_assoc]
    rw [Transaction.parseOutputs]
    simp [parseOutput_roundtrip o _ (hw o (by simp)),
      ih _ (fun p hp => hw p (List.mem_cons_of_mem _ hp))]

theorem parseTransactionData_roundtrip (v lt : Nat) (ins : List Input)
    (outs : List Output) (hv : v < 2 ^ 32) (hlt : lt < 2 ^ 32)
    (hni : ins.length < 2 ^ 64) (hno : outs.length < 2 ^ 64)
    (hwi : ∀ i ∈ ins, i.wf) (hwo : ∀ o ∈ outs, o.wf) :
    Transaction.parseTransactionData
      (toLE 4 v ++ (varlen_encode ins.length ++
        ((ins.map Transaction.inputBytes).flatten ++ (varlen_encode outs.length ++
          ((outs.map Transaction.outputBytes).flatten ++ toLE 4 lt))))) =
      some (v, ins, outs, lt) := by
  have hpow : (256 : Nat) ^ 4 = 2 ^ 32 := by norm_num
  have hv' : v < 256 ^ 4 := by omega
  have hlt' : lt < 256 ^ 4 := by omega
  have ht4 : (toLE 4 v ++ (varlen_encode ins.length ++
      ((ins.map Transaction.inputBytes).flatten ++ (varlen_encode outs.length ++
        ((outs.map Transaction.outputBytes).flatten ++ toLE 4 lt))))).take 4 =
      toLE 4 v := List.take_left' (length_toLE 4 v)
  have hd4 : (toLE 4 v ++ (varlen_encode ins.length ++
      ((ins.map Transaction.inputBytes).flatten ++ (varlen_encode outs.length ++
        ((outs.map Transaction.outputBytes).flatten ++ toLE 4 lt))))).drop 4 =
      varlen_encode ins.length ++
        ((ins.map Transaction.inputBytes).flatten ++ (varlen_encode outs.length ++
          ((outs.map Transaction.outputBytes).flatten ++ toLE 4 lt))) :=
    List.drop_left' (length_toLE 4 v)
  have hvd1 := varlen_decode_encode ins.length
    ((ins.map Transaction.inputBytes).flatten ++ (varlen_encode outs.length ++
      ((outs.map Transaction.outputBytes).flatten ++ toLE 4 lt))) hni
  have hpi := parseInputs_roundtrip ins
    (varlen_encode outs.length ++
      ((outs.map Transaction.outputBytes).flatten ++ toLE 4 lt)) hwi
  have hvd2 := varlen_decode_encode outs.length
    ((outs.map Transaction.outputBytes).flatten ++ toLE 4 lt) hno
  have hpo := parseOutputs_roundtrip outs (toLE 4 lt) hwo
  simp [Transaction.parseTransactionData, ht4, funpackL,
    funpackW_toLE 4 v hv', hd4, hvd1, hpi, hvd2, hpo, take_toLE,
    funpackW_toLE 4 lt hlt', length_toLE]

theorem assembleInputs_data (l : List Input) :
    ∀ (init : List Nat) (sp : Option Nat),
      (l.foldl Transaction.assembleInputsStep (init, sp)).1 =
        init ++ (l.map Transaction.inputBytes).flatten := by
  induction l with
  | nil => intro init sp; simp
  | cons i l ih =>
    intro init sp
    simp only [List.foldl_cons, List.map_cons, List.flatten_cons]
    rw [Transaction.assembleInputsStep, ih]
    simp [Transaction.inputBytes, List.append_assoc]

theorem assembleInputs_sp (l : List Input) (x : Input) (init : List Nat)
    (sp : Option Nat) :
    ((l ++ [x]).foldl Transaction.assembleInputsStep (init, sp)).2 =
      some ((init ++ (l.map Transaction.inputBytes).flatten ++ x.prevout_hash ++
        toLE 4 x.prevout_idx ++ varlen_encode x.script_sig.length ++
        x.script_sig).length) := by
  rw [List.foldl_append]
  simp only [List.foldl_cons, List.foldl_nil]
  rw [Transaction.assembleInputsStep]
  simp only [assembleInputs_data l init sp]

theorem assembleData_eq (t : Transaction) :
    (Transaction.assembleData t).1 =
      toLE 4 (Transaction.effectiveVersion t) ++ Transaction.ntimeBytes t ++
        varlen_encode t.inputs.length ++
        (t.inputs.map Transaction.inputBytes).flatten ++
        varlen_encode t.outputs.length ++
        (t.outputs.map Transaction.outputBytes).flatten ++
        toLE 4 t.locktime ++ Transaction.msgBytes t := by
  simp only [Transaction.assembleData]
  rw [assembleInputs_data]

theorem effectiveVersion_set (t : Transaction) :
    Transaction.effectiveVersion
      { t with version := some (Transaction.effectiveVersion t) } =
      Transaction.effectiveVersion t := by
  simp [Transaction.effectiveVersion]

/-- The buffer assembled from a transaction with the optional timestamp
and message fields disabled, decomposed into its wire-format sections. -/
theorem assembleFull_plain (t : Transaction) (hnt : t.n_time = none)
    (hmsg : t.transaction_message = none) :
    Transaction.assembleFull t =
      toLE 4 (Transaction.effectiveVersion t) ++
        (varlen_encode t.inputs.length ++
          ((t.inputs.map Transaction.inputBytes).flatten ++
            (varlen_encode t.outputs.length ++
              ((t.outputs.map Transaction.outputBytes).flatten ++
                toLE 4 t.locktime)))) := by
  simp only [Transaction.assembleFull, Transaction.assemble]
  rw [assembleData_eq]
  simp [Transaction.ntimeBytes, Transaction.msgBytes, hnt, hmsg,
    Transaction.effectiveVersion, List.append_assoc]

theorem some_pair_eq {α β : Type} {a : α} {b : β} {c : α} {d : β}
    (h : some (a, b) = some (c, d)) : a = c ∧ b = d := by
  have h2 := Option.some.inj h
  exact ⟨congrArg Prod.fst h2, congrArg Prod.snd h2⟩

/-- A successful input parse survives appending a suffix to the buffer. -/
theorem parseInput_append {d : List Nat} {i : Input} {rest : List Nat}
    (s : List Nat) (h : Transaction.parseInput d = some (i, rest)) :
    Transaction.parseInput (d ++ s) = some (i, rest ++ s) := by
  cases hq1 : funpackL ((d.drop 32).take 4) with
  | none => simp [Transaction.parseInput, hq1] at h
  | some idx =>
    cases hq2 : varlen_decode (d.drop 36) with
    | none => simp [Transaction.parseInput, hq1, hq2] at h
    | some p =>
      obtain ⟨ss_len, d1⟩ := p
      cases hq3 : funpackL ((d1.drop ss_len).take 4) with
      | none => simp [Transaction.parseInput, hq1, hq2, hq3] at h
      | some sq =>
        have hcomp : Transaction.parseInput d =
            some (⟨d.take 32, idx, d1.take ss_len, sq⟩, d1.drop (ss_len + 4)) := by
          simp [Transaction.parseInput, hq1, hq2, hq3]
        obtain ⟨h1, h2⟩ := some_pair_eq (hcomp.symm.trans h)
        subst h1
        subst h2
        have h4a : 4 ≤ (d.drop 32).length :=
          take_length_ge (funpackW_some_length hq1)
        have h36 : 36 ≤ d.length := by
          have := List.length_drop 32 d
          omega
        have h4b : 4 ≤ (d1.drop ss_len).length :=
          take_length_ge (funpackW_some_length hq3)
        have hd1 : ss_len + 4 ≤ d1.length := by
          have := List.length_drop ss_len d1
          omega
        have e1 : (d ++ s).take 32 = d.take 32 := take_append_le d s (by omega)
        have e2 : (d ++ s).drop 32 = d.drop 32 ++ s := drop_append_le d s (by omega)
        have e3 : ((d ++ s).drop 32).take 4 = (d.drop 32).take 4 := by
          rw [e2]
          exact take_append_le _ s h4a
        have e4 : (d ++ s).drop 36 = d.drop 36 ++ s := drop_append_le d s h36
        have e5 : (d1 ++ s).take ss_len = d1.take ss_len :=
          take_append_le d1 s (by omega)
        have e6 : (d1 ++ s).drop ss_len = d1.drop ss_len ++ s :=
          drop_append_le d1 s (by omega)
        have e7 : ((d1 ++ s).drop ss_len).take 4 = (d1.drop ss_len).take 4 := by
          rw [e6]
          exact take_append_le _ s h4b
        have e8 : (d1 ++ s).drop (ss_len + 4) = d1.drop (ss_len + 4) ++ s :=
          drop_append_le d1 s hd1
        have hvd := varlen_decode_append s hq2
        simp [Transaction.parseInput, e1, e3, hq1, e4, hvd, e5, e7, hq3, e8]

/-- A successful input-loop parse survives appending a suffix. -/
theorem parseInputs_append : ∀ {n : Nat} {d : List Nat} {il : List Input}
    {rest : List Nat} (s : List Nat),
    Transaction.parseInputs n d = some (il, rest) →
    Transaction.parseInputs n (d ++ s) = some (il, rest ++ s) := by
  intro n
  induction n with
  | zero =>
    intro d il rest s h
    have hcomp : Transaction.parseInputs 0 d = some ([], d) := rfl
    obtain ⟨h1, h2⟩ := some_pair_eq (hcomp.symm.trans h)
    subst h1
    subst h2
    rfl
  | succ n ih =>
    intro d il rest s h
    cases hp : Transaction.parseInput d with
    | none => simp [Transaction.parseInputs, hp] at h
    | some p =>
      obtain ⟨i, d1⟩ := p
      cases hps : Transaction.parseInputs n d1 with
      | none => simp [Transaction.parseInputs, hp, hps] at h
      | some q =>
        obtain ⟨is, d2⟩ := q
        have hcomp : Transaction.parseInputs (n + 1) d = some (i :: is, d2) := by
          simp [Transaction.parseInputs, hp, hps]
        obtain ⟨h1, h2⟩ := some_pair_eq (hcomp.symm.trans h)
        subst h1
        subst h2
        simp [Transaction.parseInputs, parseInput_append s hp, ih s hps]

/-- A successful output parse survives appending a suffix, except in the
degenerate case where the declared script length overran the buffer (the
parse then consumed everything and the remainder is empty). -/
theorem parseOutput_append {d : List Nat} {o : Output} {rest : List Nat}
    (s : List Nat) (h : Transaction.parseOutput d = some (o, rest)) :
    Transaction.parseOutput (d ++ s) = some (o, rest ++ s) ∨ rest = [] := by
  cases hq1 : funpackQ (d.take 8) with
  | none => simp [Transaction.parseOutput, hq1] at h
  | some am =>
    cases hq2 : varlen_decode (d.drop 8) with
    | none => simp [Transaction.parseOutput, hq1, hq2] at h
    | some p =>
      obtain ⟨ps_len, d1⟩ := p
      have hcomp : Transaction.parseOutput d =
          some (⟨am, d1.take ps_len⟩, d1.drop ps_len) := by
        simp [Transaction.parseOutput, hq1, hq2]
      obtain ⟨h1, h2⟩ := some_pair_eq (hcomp.symm.trans h)
      subst h1
      subst h2
      by_cases hle : ps_len ≤ d1.length
      · left
        have h8 : 8 ≤ d.length := take_length_ge (funpackW_some_length hq1)
        have e1 : (d ++ s).take 8 = d.take 8 := take_append_le d s h8
        have e2 : (d ++ s).drop 8 = d.drop 8 ++ s := drop_append_le d s h8
        have e3 : (d1 ++ s).take ps_len = d1.take ps_len :=
          take_append_le d1 s hle
        have e4 : (d1 ++ s).drop ps_len = d1.drop ps_len ++ s :=
          drop_append_le d1 s hle
        have hvd := varlen_decode_append s hq2
        simp [Transaction.parseOutput, e1, hq1, e2, hvd, e3, e4]
      · right
        exact List.drop_eq_nil_of_le (by omega)

/-- A successful output-loop parse survives appending a suffix, or ended
with an empty remainder. -/
theorem parseOutputs_append : ∀ {n : Nat} {d : List Nat} {ol : List Output}
    {rest : List Nat} (s : List Nat),
    Transaction.parseOutputs n d = some (ol, rest) →
    Transaction.parseOutputs n (d ++ s) = some (ol, rest ++ s) ∨ rest = [] := by
  intro n
  induction n with
  | zero =>
    intro d ol rest s h
    have hcomp : Transaction.parseOutputs 0 d = some ([], d) := rfl
    obtain ⟨h1, h2⟩ := some_pair_eq (hcomp.symm.trans h)
    subst h1
    subst h2
    left
    rfl
  | succ n ih =>
    intro d ol rest s h
    cases hp : Transaction.parseOutput d with
    | none => simp [Transaction.parseOutputs, hp] at h
    | some p =>
      obtain ⟨o, d1⟩ := p
      cases hps : Transaction.parseOutputs n d1 with
      | none => simp [Transaction.parseOutputs, hp, hps] at h
      | some q =>
        obtain ⟨os, d2⟩ := q
        have hcomp : Transaction.parseOutputs (n + 1) d = some (o :: os, d2) := by
          simp [Transaction.parseOutputs, hp, hps]
        obtain ⟨h1, h2⟩ := some_pair_eq (hcomp.symm.trans h)
        subst h1
        subst h2
        rcases parseOutput_append s hp with hgood | hnil
        · rcases ih s hps with hgood2 | hnil2
          · left
            simp [Transaction.parseOutputs, hgood, hgood2]
          · right
            exact hnil2
        · right
          subst hnil
          cases n with
          | zero =>
            have hc : Transaction.parseOutputs 0 ([] : List Nat) =
                some (([] : List Output), ([] : List Nat)) := rfl
            exact (some_pair_eq (hc.symm.trans hps)).2.symm
          | succ m =>
            exfalso
            simp [Transaction.parseOutputs, Transaction.parseOutput,
              funpackQ, funpackW] at hps

/-- Appending a nonempty suffix to a buffer that parses successfully
makes the exhaustiveness check (`assert len(data) == 4`) fail. -/
theorem parseTransactionData_extra {d : List Nat}
    {r : Nat × List Input × List Output × Nat} (s : List Nat)
    (h : Transaction.parseTransactionData d = some r) (hs : s ≠ []) :
    Transaction.parseTransactionData (d ++ s) = none := by
  cases hq1 : funpackL (d.take 4) with
  | none => simp [Transaction.parseTransactionData, hq1] at h
  | some v =>
    cases hq2 : varlen_decode (d.drop 4) with
    | none => simp [Transaction.parseTransactionData, hq1, hq2] at h
    | some p =>
      obtain ⟨nin, d1⟩ := p
      cases hq3 : Transaction.parseInputs nin d1 with
      | none => simp [Transaction.parseTransactionData, hq1, hq2, hq3] at h
      | some p2 =>
        obtain ⟨ins, d2⟩ := p2
        cases hq4 : varlen_decode d2 with
        | none => simp [Transaction.parseTransactionData, hq1, hq2, hq3, hq4] at h
        | some p3 =>
          obtain ⟨nout, d3⟩ := p3
          cases hq5 : Transaction.parseOutputs nout d3 with
          | none =>
            simp [Transaction.parseTransactionData, hq1, hq2, hq3, hq4, hq5] at h
          | some p4 =>
            obtain ⟨outs, d4⟩ := p4
            cases hq6 : funpackL (d4.take 4) with
            | none =>
              simp [Transaction.parseTransactionData, hq1, hq2, hq3, hq4,
                hq5, hq6] at h
            | some lt =>
              have hd4 : d4.length = 4 := by
                by_contra hne
                simp [Transaction.parseTransactionData, hq1, hq2, hq3, hq4,
                  hq5, hq6, hne] at h
              have h4 : 4 ≤ d.length := take_length_ge (funpackW_some_length hq1)
              have e1 : (d ++ s).take 4 = d.take 4 := take_append_le d s h4
              have e2 : (d ++ s).drop 4 = d.drop 4 ++ s := drop_append_le d s h4
              have hvd2 := varlen_decode_append s hq2
              have hpi := parseInputs_append s hq3
              have hvd4 := varlen_decode_append s hq4
              rcases parseOutputs_append s hq5 with hpo | hnil
              · have e6 : (d4 ++ s).take 4 = d4.take 4 :=
                  take_append_le d4 s (by omega)
                simp [Transaction.parseTransactionData, e1, hq1, e2, hvd2,
                  hpi, hvd4, hpo, e6, hq6, hd4, hs]
              · exfalso
                rw [hnil] at hd4
                simp at hd4

/-! ### Concrete sample values used by witnesses and counterexamples -/

/-- A coinbase-shaped input: null prevout hash, index `0xffffffff`, a
2-byte script, sequence `0xffffffff`. -/
def sampleInput : Input :=
  ⟨List.replicate 32 0, 4294967295, [0x51, 0x00], 4294967295⟩

/-- A freshly constructed transaction with all defaults (no raw, no
timestamp, no message): the value produced by
`Transaction(raw=None, pos=False, messages=False)`. -/
def plainTx : Transaction :=
  { _raw := none, inputs := [], outputs := [], locktime := 0, n_time := none,
    fees := none, version := none, _hash := none, transaction_message := none }

/-- A freshly constructed transaction with message support enabled:
`Transaction(messages=True)`. -/
def msgTx : Transaction :=
  { plainTx with transaction_message := some [] }

/-- An empty transaction with an explicit version and no inputs. -/
def emptyTxV1 : Transaction :=
  { plainTx with version := some 1 }

/-- A structurally populated transaction (one coinbase-shaped input, one
zero-amount output) with explicit version 1 and no raw buffer. -/
def sampleTx : Transaction :=
  { plainTx with
    inputs := [sampleInput]
    outputs := [⟨0, []⟩]
    version := some 1 }

/-- The standard pay-to-public-key-hash script template exactly as the
spec words it: byte `0x76` (OP_DUP), byte `0xa9` (OP_HASH160), byte
`0x14` (push 20), the 20 hash bytes, byte `0x88` (OP_EQUALVERIFY), byte
`0xac` (OP_CHECKSIG). -/
def p2pkh_script_spec (h : List Nat) : List Nat :=
  [0x76, 0xa9, 0x14] ++ h ++ [0x88, 0xac]

/-! ### Claim theorems -/

/-- C2: the claim says a raw-less Transaction implicitly assembles before
hashing, so hash access succeeds.  The code's `hash` property reads
`self._raw` directly (never the assembling `raw` property), so with
`_raw` absent it calls the digest on `None` and raises: `hashGet` is
`none` even though the structured fields suffice to assemble (second
conjunct: the `raw` property would have produced the assembled bytes). -/
theorem claim_C2_hash_requires_raw (sha : List Nat → List Nat)
    (t : Transaction) (h1 : t._raw = none) (h2 : t._hash = none) :
    Transaction.hashGet sha t = none ∧
      (Transaction.rawGet t).2 = Transaction.assembleFull t := by
  constructor
  · simp [Transaction.hashGet, h1, h2]
  · simp [Transaction.rawGet, h1, Transaction.assembleFull]

/-- C2 witness: the populated raw-less sample transaction. -/
theorem claim_C2_witness :
    Transaction.hashGet (fun l => l) sampleTx = none ∧
      (Transaction.rawGet sampleTx).2 = Transaction.assembleFull sampleTx :=
  claim_C2_hash_requires_raw (fun l => l) sampleTx rfl rfl

/-- C5: a transaction with at least one input is coinbase exactly when
the first input's `prevout_hash` is the 32-zero-byte null reference, and
the result depends on nothing but that first hash (not on `prevout_idx`
or the other inputs). -/
theorem claim_C5_coinbase (t : Transaction) (i : Input) (rest : List Input)
    (h : t.inputs = i :: rest) :
    (Transaction.is_coinbase t = some true ↔
      i.prevout_hash = Transaction._nullprev) ∧
    (∀ (t' : Transaction) (i' : Input) (rest' : List Input),
      t'.inputs = i' :: rest' → i'.prevout_hash = i.prevout_hash →
      Transaction.is_coinbase t' = Transaction.is_coinbase t) := by
  constructor
  · simp [Transaction.is_coinbase, h]
  · intro t' i' rest' h' hph
    simp [Transaction.is_coinbase, h, h', hph]

/-- C5 witness: the sample coinbase transaction. -/
theorem claim_C5_witness :
    (Transaction.is_coinbase sampleTx = some true ↔
      sampleInput.prevout_hash = Transaction._nullprev) ∧
    (∀ (t' : Transaction) (i' : Input) (rest' : List Input),
      t'.inputs = i' :: rest' → i'.prevout_hash = sampleInput.prevout_hash →
      Transaction.is_coinbase t' = Transaction.is_coinbase sampleTx) :=
  claim_C5_coinbase sampleTx sampleInput [] rfl

/-- C7: with a raw buffer present and the cache invalidated, `hash` is
the byte-reversed double digest of the full raw buffer, `behash` is the
byte-reverse of `hash`, and `lehexhash`/`behexhash` are the hex encodings
of `hash`/`behash`.  The digest function is abstract. -/
theorem claim_C7_hash_direction (sha : List Nat → List Nat)
    (t : Transaction) (r : List Nat) (h1 : t._raw = some r)
    (h2 : t._hash = none) :
    (Transaction.hashGet sha t).map Prod.snd = some ((sha (sha r)).reverse) ∧
    (Transaction.behashGet sha t).map Prod.snd =
      some ((sha (sha r)).reverse.reverse) ∧
    (Transaction.lehexhashGet sha t).map Prod.snd =
      some (hexlify ((sha (sha r)).reverse)) ∧
    (Transaction.behexhashGet sha t).map Prod.snd =
      some (hexlify ((sha (sha r)).reverse.reverse)) := by
  simp [Transaction.hashGet, Transaction.behashGet, Transaction.lehexhashGet,
    Transaction.behexhashGet, h1, h2]

/-- C7 witness: a transaction holding the raw buffer `[1, 2]`, with the
identity as digest. -/
theorem claim_C7_witness :
    (Transaction.hashGet (fun l => l)
        { plainTx with _raw := some [1, 2] }).map Prod.snd =
      some (((fun (l : List Nat) => l) ((fun (l : List Nat) => l) [1, 2])).reverse) ∧
    (Transaction.behashGet (fun l => l)
        { plainTx with _raw := some [1, 2] }).map Prod.snd =
      some (((fun (l : List Nat) => l) ((fun (l : List Nat) => l) [1, 2])).reverse.reverse) ∧
    (Transaction.lehexhashGet (fun l => l)
        { plainTx with _raw := some [1, 2] }).map Prod.snd =
      some (hexlify (((fun (l : List Nat) => l) ((fun (l : List Nat) => l) [1, 2])).reverse)) ∧
    (Transaction.behexhashGet (fun l => l)
        { plainTx with _raw := some [1, 2] }).map Prod.snd =
      some (hexlify (((fun (l : List Nat) => l) ((fun (l : List Nat) => l) [1, 2])).reverse.reverse)) :=
  claim_C7_hash_direction (fun l => l) { plainTx with _raw := some [1, 2] }
    [1, 2] rfl rfl

/-- C8: for any address whose decoding yields a 20-byte hash,
`Output.to_address` keeps the amount and builds exactly the spec's
pay-to-public-key-hash template around the decoded bytes. -/
theorem claim_C8_to_address (address_bytes : String → List Nat)
    (amount : Nat) (address : String)
    (h : (address_bytes address).length = 20) :
    Output.to_address address_bytes amount address =
      ⟨amount, p2pkh_script_spec (address_bytes address)⟩ := rfl

/-- C8 witness: the spec's scenario, an address decoding to 20 bytes of
`0x11` and amount 5000000000. -/
theorem claim_C8_witness :
    (((fun (_ : String) => List.replicate 20 0x11) "addr").length = 20) ∧
    Output.to_address (fun _ => List.replicate 20 0x11) 5000000000 "addr" =
      ⟨5000000000, p2pkh_script_spec (List.replicate 20 0x11)⟩ :=
  ⟨by decide,
    claim_C8_to_address (fun _ => List.replicate 20 0x11) 5000000000 "addr"
      (by decide)⟩

/-- C9: an empty raw byte string is falsy, so the constructor treats it
exactly like no raw data (storing `None`, skipping the type check), and
`disassemble(raw=b'')` behaves exactly like `disassemble()` — it keeps
and parses the previously stored buffer. -/
theorem claim_C9_empty_raw :
    (∀ (b : Bool) (fees : Option Nat) (pos m : Bool),
      Transaction.init (some []) b fees pos m =
        Transaction.init none b fees pos m) ∧
    (∀ (b : Bool) (fees : Option Nat) (pos m : Bool) (t0 : Transaction),
      Transaction.init (some []) b fees pos m = some t0 → t0._raw = none) ∧
    (∀ (t : Transaction) (du : Bool) (f : Option Nat),
      Transaction.disassemble t (some []) du f =
        Transaction.disassemble t none du f) := by
  refine ⟨?_, ?_, ?_⟩
  · intro b fees pos m
    simp [Transaction.init]
  · intro b fees pos m t0 h0
    simp [Transaction.init] at h0
    subst h0
    rfl
  · intro t du f
    simp [Transaction.disassemble]

/-- C9 witness: empty raw with the type-check flag false still succeeds
and stores no buffer; disassembling with an empty raw argument parses the
stored buffer. -/
theorem claim_C9_witness :
    Transaction.init (some []) false none false false =
      Transaction.init none false none false false ∧
    (Transaction.init (some []) false none false false = some plainTx →
      plainTx._raw = none) ∧
    Transaction.disassemble sampleTx (some []) false none =
      Transaction.disassemble sampleTx none false none :=
  ⟨claim_C9_empty_raw.1 false none false false,
    claim_C9_empty_raw.2.1 false none false false plainTx,
    claim_C9_empty_raw.2.2 sampleTx false none⟩

/-- C10: `is_coinbase` indexes `inputs[0]` unconditionally, so on a
transaction with no inputs it raises `IndexError` (modelled `none`)
instead of returning `false`. -/
theorem claim_C10_empty_inputs (t : Transaction) (h : t.inputs = []) :
    Transaction.is_coinbase t = none ∧
      Transaction.is_coinbase t ≠ some false := by
  simp [Transaction.is_coinbase, h]

/-- C10 witness: the empty transaction. -/
theorem claim_C10_witness :
    Transaction.is_coinbase emptyTxV1 = none ∧
      Transaction.is_coinbase emptyTxV1 ≠ some false :=
  claim_C10_empty_inputs emptyTxV1 rfl

theorem assemble_version (t : Transaction) :
    (Transaction.assemble t).1.version =
      some (Transaction.effectiveVersion t) := by
  simp [Transaction.assemble]

theorem assembleFull_take4 (t : Transaction) :
    (Transaction.assembleFull t).take 4 =
      toLE 4 (Transaction.effectiveVersion t) := by
  simp only [Transaction.assembleFull, Transaction.assemble]
  rw [assembleData_eq, effectiveVersion_set]
  simp only [List.append_assoc]
  exact List.take_left' (length_toLE 4 _)

/-- C6: when `version` is unset, `assemble` defaults it to 2 if the
message field is enabled (non-null, even empty) and 1 otherwise, and
serializes that value as the leading 4 bytes; an explicitly set version
is used unchanged; the constructor always leaves `version` unset. -/
theorem claim_C6_version_default (t : Transaction) (v : Nat) :
    (t.version = none → t.transaction_message ≠ none →
      (Transaction.assemble t).1.version = some 2 ∧
        (Transaction.assembleFull t).take 4 = toLE 4 2) ∧
    (t.version = none → t.transaction_message = none →
      (Transaction.assemble t).1.version = some 1 ∧
        (Transaction.assembleFull t).take 4 = toLE 4 1) ∧
    (t.version = some v →
      (Transaction.assemble t).1.version = some v ∧
        (Transaction.assembleFull t).take 4 = toLE 4 v) ∧
    (∀ (raw : Option (List Nat)) (b : Bool) (f : Option Nat) (pos m : Bool)
      (t0 : Transaction),
      Transaction.init raw b f pos m = some t0 → t0.version = none) := by
  have hver := assemble_version t
  have htake := assembleFull_take4 t
  refine ⟨?_, ?_, ?_, ?_⟩
  · intro hv hm
    obtain ⟨msg, hm'⟩ := Option.ne_none_iff_exists'.mp hm
    have he : Transaction.effectiveVersion t = 2 := by
      simp [Transaction.effectiveVersion, hv, hm']
    rw [he] at hver htake
    exact ⟨hver, htake⟩
  · intro hv hm
    have he : Transaction.effectiveVersion t = 1 := by
      simp [Transaction.effectiveVersion, hv, hm]
    rw [he] at hver htake
    exact ⟨hver, htake⟩
  · intro hv
    have he : Transaction.effectiveVersion t = v := by
      simp [Transaction.effectiveVersion, hv]
    rw [he] at hver htake
    exact ⟨hver, htake⟩
  · intro raw b f pos m t0 h0
    cases raw with
    | none =>
      simp [Transaction.init] at h0
      subst h0
      rfl
    | some r0 =>
      by_cases hr : r0 = []
      · subst hr
        simp [Transaction.init] at h0
        subst h0
        rfl
      · cases b with
        | false => simp [Transaction.init, hr] at h0
        | true =>
          simp [Transaction.init, hr] at h0
          subst h0
          rfl

/-- C6 witness: a message-enabled transaction defaults to version 2, a
plain one to 1, an explicit version 1 is kept, and a freshly constructed
transaction has no version. -/
theorem claim_C6_witness :
    ((Transaction.assemble msgTx).1.version = some 2 ∧
      (Transaction.assembleFull msgTx).take 4 = toLE 4 2) ∧
    ((Transaction.assemble plainTx).1.version = some 1 ∧
      (Transaction.assembleFull plainTx).take 4 = toLE 4 1) ∧
    ((Transaction.assemble sampleTx).1.version = some 1 ∧
      (Transaction.assembleFull sampleTx).take 4 = toLE 4 1) ∧
    plainTx.version = none :=
  ⟨(claim_C6_version_default msgTx 0).1 rfl (by simp [msgTx, plainTx]),
   (claim_C6_version_default plainTx 0).2.1 rfl rfl,
   (claim_C6_version_default sampleTx 1).2.2.1 rfl,
   (claim_C6_version_default plainTx 0).2.2.2 none true none false false
     plainTx rfl⟩

/-- C3: a buffer that parses successfully followed by at least one extra
byte fails the exhaustiveness check (`assert len(data) == 4`), so both
the parser and `disassemble` reject it fatally. -/
theorem claim_C3_trailing_bytes (d s : List Nat)
    (r : Nat × List Input × List Output × Nat) (t : Transaction)
    (hd : Transaction.parseTransactionData d = some r) (hs : s ≠ []) :
    Transaction.parseTransactionData (d ++ s) = none ∧
      Transaction.disassemble t (some (d ++ s)) false none = none := by
  have hnone := parseTransactionData_extra s hd hs
  refine ⟨hnone, ?_⟩
  have hne : ¬ (d ++ s = []) := by
    intro hc
    exact hs (List.append_eq_nil.mp hc).2
  simp [Transaction.disassemble, hne, hnone]

/-- C3 witness: a well-formed empty transaction buffer with one extra
trailing byte. -/
theorem claim_C3_witness :
    Transaction.parseTransactionData
      ([1, 0, 0, 0, 0, 0, 0, 0, 0, 0] ++ [7]) = none ∧
    Transaction.disassemble plainTx
      (some ([1, 0, 0, 0, 0, 0, 0, 0, 0, 0] ++ [7])) false none = none :=
  claim_C3_trailing_bytes [1, 0, 0, 0, 0, 0, 0, 0, 0, 0] [7]
    (1, [], [], 0) plainTx (by decide) (by decide)

/-- C1 (amended): for a validly constructed Transaction whose optional
timestamp and message fields are disabled, disassembling the assembled
buffer reproduces the input records, output records, locktime, and the
(possibly lazily defaulted) version. -/
theorem claim_C1_roundtrip (t : Transaction)
    (hnt : t.n_time = none) (hmsg : t.transaction_message = none)
    (hv : Transaction.effectiveVersion t < 2 ^ 32) (hlt : t.locktime < 2 ^ 32)
    (hni : t.inputs.length < 2 ^ 64) (hno : t.outputs.length < 2 ^ 64)
    (hwi : ∀ i ∈ t.inputs, i.wf) (hwo : ∀ o ∈ t.outputs, o.wf) :
    ∃ t2, Transaction.disassemble (Transaction.assemble t).1 none false none =
        some t2 ∧
      t2.inputs = t.inputs ∧ t2.outputs = t.outputs ∧
      t2.locktime = t.locktime ∧
      t2.version = (Transaction.assemble t).1.version ∧
      (Transaction.assemble t).1.version =
        some (Transaction.effectiveVersion t) := by
  have hparse : Transaction.parseTransactionData (Transaction.assembleFull t) =
      some (Transaction.effectiveVersion t, t.inputs, t.outputs, t.locktime) := by
    rw [assembleFull_plain t hnt hmsg]
    exact parseTransactionData_roundtrip _ _ _ _ hv hlt hni hno hwi hwo
  have hraw : (Transaction.assemble t).1._raw =
      some (Transaction.assembleFull t) := by
    simp [Transaction.assemble, Transaction.assembleFull]
  refine ⟨{ (Transaction.assemble t).1 with
      version := some (Transaction.effectiveVersion t)
      inputs := t.inputs
      outputs := t.outputs
      locktime := t.locktime
      _hash := none }, ?_, by simp, by simp, by simp, ?_, assemble_version t⟩
  · simp [Transaction.disassemble, hraw, hparse]
  · simp [assemble_version t]

/-- C1 counterexample: a validly constructed message-enabled Transaction
(the direct result of `Transaction(messages=True)`) assembles the message
as a trailing field that `disassemble` never reads, so the round trip
fails outright instead of reproducing the fields. -/
theorem claim_C1_counterexample :
    Transaction.init none true none false true = some msgTx ∧
      Transaction.disassemble (Transaction.assemble msgTx).1 none false none =
        none := by
  constructor
  · rfl
  · decide

/-- C1 witness: the populated sample transaction round-trips. -/
theorem claim_C1_witness :
    ∃ t2, Transaction.disassemble (Transaction.assemble sampleTx).1 none
        false none = some t2 ∧
      t2.inputs = sampleTx.inputs ∧ t2.outputs = sampleTx.outputs ∧
      t2.locktime = sampleTx.locktime ∧
      t2.version = (Transaction.assemble sampleTx).1.version ∧
      (Transaction.assemble sampleTx).1.version =
        some (Transaction.effectiveVersion sampleTx) :=
  claim_C1_roundtrip sampleTx rfl rfl (by decide) (by decide) (by decide)
    (by decide) (by decide) (by decide)

theorem assembleData_sp (t : Transaction) (l : List Input) (x : Input)
    (h : t.inputs = l ++ [x]) :
    (Transaction.assembleData t).2 =
      some ((toLE 4 (Transaction.effectiveVersion t) ++ Transaction.ntimeBytes t ++
        varlen_encode t.inputs.length ++ (l.map Transaction.inputBytes).flatten ++
        x.prevout_hash ++ toLE 4 x.prevout_idx ++
        varlen_encode x.script_sig.length ++ x.script_sig).length) := by
  simp only [Transaction.assembleData]
  rw [h]
  exact assembleInputs_sp l x _ none

/-- C4 (amended): for a Transaction with at least one input, the two
halves of `assemble(split=True)` concatenate to `assemble(split=False)`,
the first half ends exactly with the last input's `script_sig` bytes, and
the second half starts exactly with that input's 4-byte sequence-number
field. -/
theorem claim_C4_split (t : Transaction) (l : List Input) (x : Input)
    (h : t.inputs = l ++ [x]) :
    (Transaction.assembleSplit t).1 ++ (Transaction.assembleSplit t).2 =
        Transaction.assembleFull t ∧
    (Transaction.assembleSplit t).1 =
      toLE 4 (Transaction.effectiveVersion t) ++ Transaction.ntimeBytes t ++
        varlen_encode t.inputs.length ++ (l.map Transaction.inputBytes).flatten ++
        x.prevout_hash ++ toLE 4 x.prevout_idx ++
        varlen_encode x.script_sig.length ++ x.script_sig ∧
    (Transaction.assembleSplit t).2 =
      toLE 4 x.seqno ++ (varlen_encode t.outputs.length ++
        ((t.outputs.map Transaction.outputBytes).flatten ++
          (toLE 4 t.locktime ++ Transaction.msgBytes t))) := by
  have ht1 : ({ t with version := some (Transaction.effectiveVersion t) } :
      Transaction).inputs = l ++ [x] := h
  have hsp0 := assembleData_sp
    { t with version := some (Transaction.effectiveVersion t) } l x ht1
  rw [effectiveVersion_set] at hsp0
  have hsp : (Transaction.assemble t).2.2 =
      some ((toLE 4 (Transaction.effectiveVersion t) ++ Transaction.ntimeBytes t ++
        varlen_encode t.inputs.length ++ (l.map Transaction.inputBytes).flatten ++
        x.prevout_hash ++ toLE 4 x.prevout_idx ++
        varlen_encode x.script_sig.length ++ x.script_sig).length) := by
    simp only [Transaction.assemble]
    exact hsp0
  have hdata : Transaction.assembleFull t =
      (toLE 4 (Transaction.effectiveVersion t) ++ Transaction.ntimeBytes t ++
        varlen_encode t.inputs.length ++ (l.map Transaction.inputBytes).flatten ++
        x.prevout_hash ++ toLE 4 x.prevout_idx ++
        varlen_encode x.script_sig.length ++ x.script_sig) ++
      (toLE 4 x.seqno ++ (varlen_encode t.outputs.length ++
        ((t.outputs.map Transaction.outputBytes).flatten ++
          (toLE 4 t.locktime ++ Transaction.msgBytes t)))) := by
    simp only [Transaction.assembleFull, Transaction.assemble]
    rw [assembleData_eq, effectiveVersion_set]
    simp [h, Transaction.inputBytes, Transaction.ntimeBytes,
      Transaction.msgBytes, List.append_assoc]
  have hfull : (Transaction.assemble t).2.1 = Transaction.assembleFull t := rfl
  have hsplit : Transaction.assembleSplit t =
      ((Transaction.assemble t).2.1.take ((toLE 4 (Transaction.effectiveVersion t) ++ Transaction.ntimeBytes t ++
        varlen_encode t.inputs.length ++ (l.map Transaction.inputBytes).flatten ++
        x.prevout_hash ++ toLE 4 x.prevout_idx ++
        varlen_encode x.script_sig.length ++ x.script_sig).length),
       (Transaction.assemble t).2.1.drop ((toLE 4 (Transaction.effectiveVersion t) ++ Transaction.ntimeBytes t ++
        varlen_encode t.inputs.length ++ (l.map Transaction.inputBytes).flatten ++
        x.prevout_hash ++ toLE 4 x.prevout_idx ++
        varlen_encode x.script_sig.length ++ x.script_sig).length)) := by
    simp only [Transaction.assembleSplit]
    rw [hsp]
  rw [hfull, hdata, List.take_left, List.drop_left] at hsplit
  refine ⟨?_, ?_, ?_⟩
  · rw [hsplit, hdata]
  · rw [hsplit]
  · rw [hsplit]

/-- C4 counterexample: with no inputs the split point is still `None`,
Python slicing with a `None` bound returns the whole buffer for both
halves, and their concatenation is twice the buffer, not the buffer. -/
theorem claim_C4_counterexample :
    ¬ ((Transaction.assembleSplit emptyTxV1).1 ++
        (Transaction.assembleSplit emptyTxV1).2 =
      Transaction.assembleFull emptyTxV1) := by decide

/-- C4 witness: the one-input sample transaction. -/
theorem claim_C4_witness :
    (Transaction.assembleSplit sampleTx).1 ++
        (Transaction.assembleSplit sampleTx).2 =
      Transaction.assembleFull sampleTx ∧
    (Transaction.assembleSplit sampleTx).1 =
      toLE 4 (Transaction.effectiveVersion sampleTx) ++
        Transaction.ntimeBytes sampleTx ++
        varlen_encode sampleTx.inputs.length ++
        (([] : List Input).map Transaction.inputBytes).flatten ++
        sampleInput.prevout_hash ++ toLE 4 sampleInput.prevout_idx ++
        varlen_encode sampleInput.script_sig.length ++
        sampleInput.script_sig ∧
    (Transaction.assembleSplit sampleTx).2 =
      toLE 4 sampleInput.seqno ++ (varlen_encode sampleTx.outputs.length ++
        ((sampleTx.outputs.map Transaction.outputBytes).flatten ++
          (toLE 4 sampleTx.locktime ++ Transaction.msgBytes sampleTx))) :=
  claim_C4_split sampleTx [] sampleInput rfl

end Cryptokit
